import Mathlib

/-!
# ocamlmerlin client: a shallow embedding of `src/frontend/ocamlmerlin_client.c`

The client is a sequential C program that talks to the operating system.  Its
functions are embedded as Lean functions:

* byte strings (`char *`) are lists of byte values (`List Nat`), a C string being
  the bytes before its terminating NUL;
* the argument buffer is a list of bytes together with a log of the indices the
  code stores to;
* system calls take their results from a script (the list of results the kernel
  is going to give, in call order), and every call is recorded;
* `exit`, `abort` and the `exec` family end the run: they are outcomes, and so
  is a `strcpy` that goes beyond its destination array.
-/

namespace Merlin

/-! ## Strings and numbers -/

/-- The bytes of an ASCII string literal of the source. -/
def cstr (s : String) : List Nat := s.toList.map Char.toNat

/-- Digits of the conversions `%llu` and `%d` of printf for a non-negative
value, most significant digit first.  Twenty rounds are enough for every
64-bit value. -/
def utoa_loop : Nat → Nat → List Nat → List Nat
  | 0, _, acc => acc
  | fuel + 1, n, acc =>
    if n < 10 then (48 + n) :: acc
    else utoa_loop fuel (n / 10) ((48 + n % 10) :: acc)

/-- Decimal text of an unsigned 64-bit value (printf `%llu`). -/
def utoa (n : Nat) : List Nat := utoa_loop 20 n []

/-- Decimal text of an `int` (printf `%d`). -/
def itoa (n : Int) : List Nat :=
  if n < 0 then 45 :: utoa (-n).toNat else utoa n.toNat

/-- The cast `(unsigned long long) x`. -/
def ull (x : Nat) : Nat := x % 2 ^ 64

/-- The value of errno after an interrupted system call. -/
def EINTR : Nat := 4

/-! ## Outcomes, the system-call script, the run monad -/

/-- How a piece of the program ends: it returns a value, or the process ends
through `exit` (with the diagnostic that `failwith` or `failwith_perror`
printed, if any), through `abort`, or by replacing its image (`execlp`,
`execvp`).  `overflow` is a copy that stores beyond the end of its
destination array: what the program does from there on is undefined.
`blocked` is the end of the script: the next system call has no described
result. -/
inductive Outcome (α : Type) where
  | ret (a : α)
  | exit (status : Int) (diag : Option String)
  | abort
  | exec (file : List Nat) (args : List (List Nat))
  | overflow
  | blocked
deriving DecidableEq, Repr

/-- Lines 42-46: `perror(msg); exit(1);`. -/
def failwith_perror {α : Type} (msg : String) : Outcome α := .exit 1 (some msg)

/-- Lines 48-52: `fprintf(stderr, "%s\n", msg); exit(1);`. -/
def failwith {α : Type} (msg : String) : Outcome α := .exit 1 (some msg)

/-- The result of one system call: the returned value, errno (meaningful when
the value is -1) and, for `read`, the byte delivered. -/
structure SysRes where
  ret : Int
  errno : Nat
  data : Nat
deriving DecidableEq, Repr

/-- The system and library calls of the client that reach the kernel. -/
inductive Call where
  | socket
  | connect (path : List Nat)
  | unlink (path : List Nat)
  | bind (path : List Nat)
  | listen
  | fork
  | execlp (file : List Nat) (args : List (List Nat))
  | execvp (file : List Nat) (args : List (List Nat))
  | close
  | sendmsg (fd : Int) (fds : List Int) (iov_len : Nat)
  | send (fd : Int) (offset : Nat) (count : Nat)
  | read (fd : Int)
deriving DecidableEq, Repr

/-- The world of one run: the results of the coming system calls, the calls
made so far (oldest first) and the bytes the connected socket has accepted. -/
structure World where
  script : List SysRes
  calls : List Call
  sent : List Nat
deriving DecidableEq, Repr

/-- A piece of the program that may make system calls. -/
def M (α : Type) : Type := World → Outcome α × World

/-- Sequencing: what follows runs only when the first part returns. -/
def M.bind {α β : Type} (m : M α) (f : α → M β) : M β := fun w =>
  match m w with
  | (.ret a, w1) => f a w1
  | (.exit s d, w1) => (.exit s d, w1)
  | (.abort, w1) => (.abort, w1)
  | (.exec p a, w1) => (.exec p a, w1)
  | (.overflow, w1) => (.overflow, w1)
  | (.blocked, w1) => (.blocked, w1)

instance : Monad M where
  pure a := fun w => (.ret a, w)
  bind := M.bind

/-- A pure step ending in the given outcome. -/
def finish {α : Type} (o : Outcome α) : M α := fun w => (o, w)

/-- A system call whose result the program uses: it is recorded and takes the
next result of the script. -/
def sys (c : Call) : M SysRes := fun w =>
  match w.script with
  | [] => (.blocked, ⟨[], w.calls ++ [c], w.sent⟩)
  | r :: rest => (.ret r, ⟨rest, w.calls ++ [c], w.sent⟩)

/-- A system call whose result the program ignores (`unlink`, `close`): it is
recorded only. -/
def sys_ignored (c : Call) : M Unit := fun w => (.ret (), ⟨w.script, w.calls ++ [c], w.sent⟩)

/-- The calls `sendmsg` and `send` on the connected stream socket, asked to
send `count` bytes of `buffer` from `offset` on.  The script entry says how
many bytes the socket is ready to take: the kernel takes that many, at most
`count`, and returns their number; a negative entry is a failure, returned
as -1 with the entry's errno. -/
def sys_send (c : Call) (buffer : List Nat) (offset count : Nat) : M SysRes := fun w =>
  match w.script with
  | [] => (.blocked, ⟨[], w.calls ++ [c], w.sent⟩)
  | r :: rest =>
    if r.ret < 0 then (.ret ⟨-1, r.errno, r.data⟩, ⟨rest, w.calls ++ [c], w.sent⟩)
    else
      let n := min r.ret.toNat count
      (.ret ⟨n, r.errno, r.data⟩,
        ⟨rest, w.calls ++ [c], w.sent ++ (buffer.drop offset).take n⟩)

/-- The loop of lines 37-38, `do var = command; while (var == -1 && errno == EINTR)`,
with a bound on the number of rounds. -/
def NO_EINTR_loop (command : M SysRes) : Nat → M SysRes
  | 0 => finish .blocked
  | fuel + 1 => fun w =>
    match command w with
    | (.ret r, w1) =>
      if r.ret = -1 ∧ r.errno = EINTR then NO_EINTR_loop command fuel w1
      else (.ret r, w1)
    | (o, w1) => (o, w1)

/-- Lines 37-38, the macro `NO_EINTR(var, command)`.  Every round of a system
call takes one entry of the script, so one round more than the script is
long is a bound that is never reached. -/
def NO_EINTR (command : M SysRes) : M SysRes := fun w =>
  NO_EINTR_loop command (w.script.length + 1) w

/-! ## Lines 56-92: `ipc_send` -/

/-- Lines 82-91, the loop `while (sent < len)`.  `sent` is not negative here,
so the comparison of the `ssize_t` with the `size_t` is the one of the
numbers. -/
def ipc_send_loop (fd : Int) (buffer : List Nat) (len : Nat) : Nat → Nat → M Unit
  | 0, _ => finish .blocked
  | fuel + 1, sent =>
    if sent < len then do
      let r ← NO_EINTR (sys_send (.send fd sent (len - sent)) buffer sent (len - sent))
      if r.ret = -1 then finish (failwith_perror "sent")
      else ipc_send_loop fd buffer len fuel (sent + r.ret.toNat)
    else pure ()

/-- Lines 56-92.  `ptrSize` is `sizeof(buffer)`, the size of a `char *`: the
length given to the first `sendmsg`, which also carries the three descriptors. -/
def ipc_send (ptrSize : Nat) (fd : Int) (buffer : List Nat) (len : Nat) (fds : List Int) :
    M Unit := do
  let r ← NO_EINTR (sys_send (.sendmsg fd fds ptrSize) buffer 0 ptrSize)
  if r.ret = -1 then finish (failwith_perror "sendmsg")
  else fun w => ipc_send_loop fd buffer len (w.script.length + 1) r.ret.toNat w

/-! ## Lines 96-124: `prepare_args` -/

/-- The argument buffer: its bytes, and the indices stored to (latest first). -/
structure Buf where
  mem : List Nat
  log : List Nat
deriving DecidableEq, Repr

/-- The assignment `buffer[i] = v`. -/
def Buf.store (b : Buf) (i v : Nat) : Buf := ⟨b.mem.set i v, i :: b.log⟩

/-- Line 96: `#define byte(x,n) ((unsigned)((x) >> (n * 8)) & 0xFF)`, for a
non-negative `x`; `unsigned` has 32 bits. -/
def byte (x n : Nat) : Nat := ((x >>> (n * 8)) % 2 ^ 32) &&& 0xFF

/-- Lines 105-110, the loop `while (*p && j < len-1)`.  The list is what is
left of the string at `p`, `*p` being its head, or NUL at its end.  Returns
what is left of the string, the buffer and `j`.  (`len - 1` is only
evaluated after `j < len` held with `j >= 4`, so it does not wrap.) -/
def copy_arg (len : Nat) : List Nat → Buf → Nat → List Nat × Buf × Nat
  | [], b, j => ([], b, j)
  | c :: p, b, j =>
    if c ≠ 0 ∧ j < len - 1 then copy_arg len p (b.store j c) (j + 1)
    else (c :: p, b, j)

/-- Lines 102-116, the loop `for (int i = 0; i < argc && j < len; ++i)`. -/
def append_args (len : Nat) : List (List Nat) → Buf → Nat → Buf × Outcome Nat
  | [], b, j => (b, .ret j)
  | a :: rest, b, j =>
    if j < len then
      match copy_arg len a b j with
      | (p, b1, j1) =>
        if p.headD 0 ≠ 0 then (b1, failwith "maximum number of arguments exceeded")
        else append_args len rest (b1.store j1 0) (j1 + 1)
    else (b, .ret j)

/-- Lines 98-124.  `argv` holds the `argc` strings. -/
def prepare_args (buffer : List Nat) (len : Nat) (argv : List (List Nat)) :
    Buf × Outcome Nat :=
  match append_args len argv ⟨buffer, []⟩ 4 with
  | (b, .ret j) =>
    ((((b.store 0 (byte j 0)).store 1 (byte j 1)).store 2 (byte j 2)).store 3 (byte j 3),
      .ret j)
  | r => r

/-! ## Lines 126-203: connecting to the server, starting it -/

/-- Lines 131 and 156: `strcpy(address.sun_path, socket_path)`.  The copy
stores the characters of the path and a terminator into the array `sun_path`
of `sun_path_size` bytes; whether it stays inside the array. -/
def strcpy_fits (sun_path_size : Nat) (socket_path : List Nat) : Bool :=
  decide (socket_path.length + 1 ≤ sun_path_size)

/-- Lines 126-148.  `sun_path_size` is `sizeof(address.sun_path)`. -/
def connect_socket (sun_path_size : Nat) (socket_path : List Nat) (fail : Bool) : M Int :=
  if strcpy_fits sun_path_size socket_path then do
    let sock ← sys .socket
    if sock.ret = -1 then finish (failwith_perror "socket")
    else do
      let err ← NO_EINTR (sys (.connect socket_path))
      if err.ret = -1 then
        if fail then finish (failwith_perror "connect")
        else do
          sys_ignored .close
          pure (-1)
      else pure sock.ret
  else finish .overflow

/-- Lines 150-187.  `sun_path_size` is `sizeof(address.sun_path)`. -/
def start_server (sun_path_size : Nat) (socket_path exec_path : List Nat) : M Unit :=
  if strcpy_fits sun_path_size socket_path then do
    sys_ignored (.unlink socket_path)
    let sock ← sys .socket
    if sock.ret = -1 then finish (failwith_perror "socket")
    else do
      let err ← NO_EINTR (sys (.bind socket_path))
      if err.ret = -1 then finish (failwith_perror "bind")
      else do
        let l ← sys .listen
        if l.ret = -1 then finish (failwith_perror "listen")
        else do
          let child ← sys .fork
          if child.ret = -1 then finish (failwith_perror "fork")
          else if child.ret = 0 then do
            let args := [exec_path, cstr "daemon", itoa sock.ret]
            let e ← sys (.execlp exec_path args)
            if e.ret = -1 then finish (failwith_perror "execlp")
            else finish (.exec exec_path args)
          else sys_ignored .close
  else finish .overflow

/-- Lines 189-203. -/
def connect_and_serve (sun_path_size : Nat) (socket_path exec_path : List Nat) : M Int := do
  let sock ← connect_socket sun_path_size socket_path false
  let sock ←
    if sock = -1 then do
      start_server sun_path_size socket_path exec_path
      connect_socket sun_path_size socket_path true
    else pure sock
  if sock = -1 then finish .abort
  else pure sock

/-! ## Lines 207-237: the paths -/

/-- What the program runs on and finds around it. -/
structure Env where
  /-- The constant `PATH_MAX` of `sys/syslimits.h`. -/
  PATH_MAX : Nat
  /-- The size of a pointer, `sizeof(char *)`. -/
  ptrSize : Nat
  /-- The size of the array `sun_path` of `struct sockaddr_un` (`sys/un.h`). -/
  sun_path_size : Nat
  /-- Whether plain `char` is signed. -/
  charSigned : Bool
  /-- For a path, whether `realpath` resolves it (it returns NULL if not) and
  the string that its buffer holds after the call. -/
  realpath : List Nat → Bool × List Nat
  /-- For a path, the fields `st_dev` and `st_ino` that `stat` gives; `none`
  when `stat` fails. -/
  stat : List Nat → Option (Nat × Nat)
  /-- The value of `getenv("TMPDIR")`. -/
  TMPDIR : Option (List Nat)

/-- Lines 213-214, the loop `while (strsz > 0 && merlin_path[strsz-1] != '/')`. -/
def dir_len (path : List Nat) : Nat → Nat
  | 0 => 0
  | strsz + 1 => if path.getD strsz 0 ≠ 47 then dir_len path strsz else strsz + 1

/-- Lines 207-222.  The value returned by `realpath` is not looked at. -/
def compute_merlinpath (env : Env) (argv0 : List Nat) : Outcome (List Nat) :=
  let merlin_path := (env.realpath argv0).2
  let strsz := dir_len merlin_path merlin_path.length
  if strsz + 19 > env.PATH_MAX then failwith "path is too long"
  else .ret (merlin_path.take strsz ++ cstr "ocamlmerlin-daemon")

/-- Lines 230-232: `getenv("TMPDIR")`, or `"/tmp/"` when it is not set. -/
def get_tmpdir (env : Env) : List Nat :=
  match env.TMPDIR with
  | none => cstr "/tmp/"
  | some t => t

/-- Lines 235-236: the text of the format `"%s/ocamlmerlin_%llu_%llu.socket"`. -/
def socketpath_text (tmpdir : List Nat) (dev ino : Nat) : List Nat :=
  tmpdir ++ cstr "/ocamlmerlin_" ++ utoa dev ++ cstr "_" ++ utoa ino ++ cstr ".socket"

/-- The call `snprintf(str, size, ...)` for `size > 0` and the text that the
format expands to: the characters it stores, the first `size - 1` of the
text, and the index in `str` at which it stores the terminator. -/
def snprintf (size : Nat) (text : List Nat) : List Nat × Nat :=
  (text.take (size - 1), min text.length (size - 1))

/-- Lines 224-237.  The result is the string that `snprintf` leaves in
`socket_path`, an array of `PATH_MAX` bytes; the size given to `snprintf` is
`PATH_MAX+1`, so for a text of `PATH_MAX` characters or more the terminator
goes to index `PATH_MAX`, after the last byte of the array.  The program goes
on with the characters stored; the index of the terminator is the second
component of `snprintf`. -/
def compute_socketpath (env : Env) (merlin_path : List Nat) : Outcome (List Nat) :=
  match env.stat merlin_path with
  | none => failwith_perror "stat (cannot find ocamlmerlin binary)"
  | some st =>
    .ret (snprintf (env.PATH_MAX + 1)
      (socketpath_text (get_tmpdir env) (ull st.1) (ull st.2))).1

/-! ## Lines 241-278: `main` -/

/-- Line 244: `argbuffer[65536]`, a static array, all zero at the start. -/
def argbuffer : List Nat := List.replicate 65536 0

/-- The value `sizeof(argbuffer)`. -/
def argbuffer_size : Nat := 65536

/-- The `int` that a `char` holding the byte `b` converts to. -/
def char_to_int (charSigned : Bool) (b : Nat) : Int :=
  if charSigned ∧ 128 ≤ b then (b : Int) - 256 else (b : Int)

/-- The exit status that the parent of a process sees: the low eight bits of
the argument of `exit`. -/
def exit_status (v : Int) : Nat := (v % 256).toNat

/-- Lines 264-270 of `main`: read the status byte and exit. -/
def main_relay (env : Env) (sock : Int) : M Unit := do
  let err ← NO_EINTR (sys (.read sock))
  if err.ret = 1 then finish (.exit (char_to_int env.charSigned err.data) none)
  else finish (.exit 1 none)

/-- Lines 252-278. -/
def main (env : Env) (argv : List (List Nat)) : M Unit :=
  match compute_merlinpath env (argv.headD []) with
  | .ret merlin_path =>
    if argv.length ≥ 2 ∧ argv.getD 1 [] = cstr "daemon" then
      match compute_socketpath env merlin_path with
      | .ret socket_path => do
        let sock ← connect_and_serve env.sun_path_size socket_path merlin_path
        match prepare_args argbuffer argbuffer_size (argv.drop 2) with
        | (b, .ret len) => do
          ipc_send env.ptrSize sock b.mem len [0, 1, 2]
          main_relay env sock
        | (_, .exit s d) => finish (.exit s d)
        | (_, _) => finish .blocked
      | .exit s d => finish (.exit s d)
      | _ => finish .blocked
    else do
      let args := cstr "ocamlmerlin-daemon" :: argv.drop 1
      let e ← sys (.execvp merlin_path args)
      if e.ret = -1 then finish (failwith_perror "execvp(ocamlmerlin-daemon)")
      else finish (.exec merlin_path args)
  | .exit s d => finish (.exit s d)
  | _ => finish .blocked

/-! ## The receiving side -/

/-- The encoded size of an argument list: four bytes for the length field and,
for each argument, its bytes and a terminator. -/
def encodedSize (args : List (List Nat)) : Nat := 4 + (args.map (fun a => a.length + 1)).sum

/-- The request body of an argument list: each argument and its terminator. -/
def payload (args : List (List Nat)) : List Nat := (args.map (fun a => a ++ [0])).flatten

/-- Split a byte sequence at each terminating zero byte; `cur` is the string
being read, latest byte first. -/
def splitNul : List Nat → List Nat → List (List Nat)
  | [], _ => []
  | c :: rest, cur =>
    if c = 0 then cur.reverse :: splitNul rest [] else splitNul rest (c :: cur)

/-- Modelled from the spec: the decoding of a request on the receiving side,
which is not in the client: skip the four bytes of the length field, split
the rest at each terminating zero byte. -/
def decode (msg : List Nat) : List (List Nat) := splitNul (msg.drop 4) []

/-- The number that four bytes hold in little-endian order. -/
def le32 (b : List Nat) : Nat :=
  b.getD 0 0 + 256 * b.getD 1 0 + 65536 * b.getD 2 0 + 16777216 * b.getD 3 0


/-! ## Notions used in the statements -/

/-- An entry of the script that makes `NO_EINTR` go round again. -/
def interrupted (e : SysRes) : Prop := e.ret = -1 ∧ e.errno = EINTR

instance interrupted_decidable (e : SysRes) : Decidable (interrupted e) :=
  inferInstanceAs (Decidable (e.ret = -1 ∧ e.errno = EINTR))

/-- A decimal digit character. -/
def is_digit (c : Nat) : Prop := 48 ≤ c ∧ c ≤ 57

/-- The number that a string of decimal digits denotes. -/
def digits_val (l : List Nat) : Nat := l.foldl (fun v c => 10 * v + (c - 48)) 0

/-! ## The run monad and `NO_EINTR` -/

theorem bind_ret {α β : Type} (m : M α) (f : α → M β) (w w1 : World) (a : α)
    (h : m w = (.ret a, w1)) : (m >>= f) w = f a w1 := by
  show M.bind m f w = f a w1
  simp only [M.bind, h]

theorem bind_exit {α β : Type} (m : M α) (f : α → M β) (w w1 : World) (s : Int)
    (d : Option String) (h : m w = (.exit s d, w1)) : (m >>= f) w = (.exit s d, w1) := by
  show M.bind m f w = (.exit s d, w1)
  simp only [M.bind, h]

theorem bind_ret_inv {α β : Type} (m : M α) (f : α → M β) (w w2 : World) (b : β)
    (h : (m >>= f) w = (.ret b, w2)) :
    ∃ a w1, m w = (.ret a, w1) ∧ f a w1 = (.ret b, w2) := by
  change M.bind m f w = (.ret b, w2) at h
  unfold M.bind at h
  rcases hm : m w with ⟨o, w1⟩
  rw [hm] at h
  cases o with
  | ret a => exact ⟨a, w1, rfl, h⟩
  | exit s d => simp at h
  | abort => simp at h
  | exec p a => simp at h
  | overflow => simp at h
  | blocked => simp at h

theorem sys_cons (c : Call) (r : SysRes) (rest : List SysRes) (calls : List Call)
    (sent : List Nat) :
    sys c ⟨r :: rest, calls, sent⟩ = (.ret r, ⟨rest, calls ++ [c], sent⟩) := rfl

theorem NO_EINTR_loop_sys (c : Call) (pre : List SysRes) (r : SysRes) (rest : List SysRes)
    (calls : List Call) (sent : List Nat) (fuel : Nat) (hfuel : pre.length < fuel)
    (hpre : ∀ e ∈ pre, interrupted e) (hr : ¬ interrupted r) :
    NO_EINTR_loop (sys c) fuel ⟨pre ++ r :: rest, calls, sent⟩
      = (.ret r, ⟨rest, calls ++ List.replicate (pre.length + 1) c, sent⟩) := by
  induction pre generalizing fuel calls with
  | nil =>
    cases fuel with
    | zero => simp at hfuel
    | succ f =>
      unfold interrupted at hr
      simp only [NO_EINTR_loop, List.nil_append, sys_cons, hr, if_false, List.length_nil,
        zero_add, List.replicate_one]
  | cons e pre ih =>
    cases fuel with
    | zero => simp at hfuel
    | succ f =>
      have he : e.ret = -1 ∧ e.errno = EINTR := hpre e (List.mem_cons_self _ _)
      have hp : ∀ x ∈ pre, interrupted x := fun x hx => hpre x (List.mem_cons_of_mem _ hx)
      simp only [List.length_cons, Nat.add_lt_add_iff_right] at hfuel
      simp only [NO_EINTR_loop, List.cons_append, sys_cons, he, and_self, if_true]
      rw [ih (calls ++ [c]) f hfuel hp]
      simp [List.replicate_succ]

theorem NO_EINTR_sys (c : Call) (pre : List SysRes) (r : SysRes) (rest : List SysRes)
    (calls : List Call) (sent : List Nat)
    (hpre : ∀ e ∈ pre, interrupted e) (hr : ¬ interrupted r) :
    NO_EINTR (sys c) ⟨pre ++ r :: rest, calls, sent⟩
      = (.ret r, ⟨rest, calls ++ List.replicate (pre.length + 1) c, sent⟩) := by
  unfold NO_EINTR
  exact NO_EINTR_loop_sys c pre r rest calls sent _
    (by simp only [List.length_append, List.length_cons]; omega) hpre hr

theorem NO_EINTR_loop_send (c : Call) (buffer : List Nat) (off cnt fuel : Nat)
    (w w1 : World) (r : SysRes)
    (h : NO_EINTR_loop (sys_send c buffer off cnt) fuel w = (.ret r, w1)) :
    (r.ret = -1 ∧ w1.sent = w.sent) ∨
    (0 ≤ r.ret ∧ r.ret.toNat ≤ cnt ∧
      w1.sent = w.sent ++ (buffer.drop off).take r.ret.toNat) := by
  induction fuel generalizing w with
  | zero => simp [NO_EINTR_loop, finish] at h
  | succ f ih =>
    rcases w with ⟨script, calls, sent⟩
    cases script with
    | nil => simp [NO_EINTR_loop, sys_send] at h
    | cons r0 rest =>
      by_cases hneg : r0.ret < 0
      · simp only [NO_EINTR_loop, sys_send, hneg, if_true, true_and] at h
        by_cases hi : r0.errno = EINTR
        · simp only [hi, if_true] at h
          exact ih ⟨rest, calls ++ [c], sent⟩ h
        · simp only [hi, if_false, Prod.mk.injEq, Outcome.ret.injEq] at h
          left
          rw [← h.1, ← h.2]
          exact ⟨rfl, rfl⟩
      · have hn : ¬ ((((min r0.ret.toNat cnt : Nat) : Int) = -1) ∧ r0.errno = EINTR) := by
          omega
        simp only [NO_EINTR_loop, sys_send, hneg, if_false, hn, Prod.mk.injEq,
          Outcome.ret.injEq] at h
        right
        rw [← h.1, ← h.2]
        simp only [Int.toNat_ofNat]
        exact ⟨by omega, by omega, trivial⟩

/-! ## Facts about `prepare_args` -/

theorem payload_length (args : List (List Nat)) :
    4 + (payload args).length = encodedSize args := by
  induction args with
  | nil => simp [payload, encodedSize]
  | cons a rest ih =>
    simp only [payload, encodedSize] at ih
    simp only [payload, encodedSize, List.map_cons, List.flatten_cons, List.length_append,
      List.length_cons, List.length_nil, List.sum_cons]
    omega

theorem take_set_succ (l : List Nat) (j c : Nat) (h : j < l.length) :
    (l.set j c).take (j + 1) = l.take j ++ [c] := by
  induction l generalizing j with
  | nil => simp at h
  | cons x xs ih =>
    cases j with
    | zero => simp
    | succ k =>
      simp only [List.length_cons, Nat.add_lt_add_iff_right] at h
      simp [ih k h]

theorem copy_arg_fits (len : Nat) (a : List Nat) (b : Buf) (j : Nat)
    (hnul : ∀ c ∈ a, c ≠ 0) (hfit : j + a.length < len) (hmem : len ≤ b.mem.length) :
    (copy_arg len a b j).1 = [] ∧ (copy_arg len a b j).2.2 = j + a.length ∧
    (copy_arg len a b j).2.1.mem.length = b.mem.length ∧
    (copy_arg len a b j).2.1.mem.take (j + a.length) = b.mem.take j ++ a := by
  induction a generalizing b j with
  | nil => simp [copy_arg]
  | cons c p ih =>
    have hc : c ≠ 0 := hnul c (List.mem_cons_self _ _)
    have hj : j < len - 1 := by simp only [List.length_cons] at hfit; omega
    have hp : ∀ c ∈ p, c ≠ 0 := fun x hx => hnul x (List.mem_cons_of_mem _ hx)
    simp only [List.length_cons] at hfit
    have h := ih (b.store j c) (j + 1) hp (by omega) (by simp [Buf.store]; exact hmem)
    simp only [copy_arg, hc, hj, ne_eq, not_false_eq_true, and_self, if_true]
    obtain ⟨h1, h2, h3, h4⟩ := h
    refine ⟨h1, ?_, ?_, ?_⟩
    · rw [h2, List.length_cons]; omega
    · rw [h3]; simp [Buf.store]
    · have e : j + (c :: p).length = j + 1 + p.length := by
        simp only [List.length_cons]; omega
      rw [e, h4]
      simp only [Buf.store]
      rw [take_set_succ _ _ _ (by omega)]
      simp

theorem append_args_fits (len : Nat) (args post : List (List Nat)) (b : Buf) (j : Nat)
    (hnul : ∀ a ∈ args, ∀ c ∈ a, c ≠ 0) (hfit : j + (payload args).length ≤ len)
    (hmem : len ≤ b.mem.length) :
    ∃ b1 : Buf, append_args len (args ++ post) b j
        = append_args len post b1 (j + (payload args).length) ∧
      b1.mem.length = b.mem.length ∧
      b1.mem.take (j + (payload args).length) = b.mem.take j ++ payload args := by
  induction args generalizing b j with
  | nil => exact ⟨b, by simp [payload], rfl, by simp [payload]⟩
  | cons a rest ih =>
    have hlen : (payload (a :: rest)).length = a.length + 1 + (payload rest).length := by
      simp only [payload, List.map_cons, List.flatten_cons, List.length_append,
        List.length_cons, List.length_nil]
    rw [hlen] at hfit ⊢
    have ha : ∀ c ∈ a, c ≠ 0 := hnul a (List.mem_cons_self _ _)
    have hrest : ∀ x ∈ rest, ∀ c ∈ x, c ≠ 0 := fun x hx => hnul x (List.mem_cons_of_mem _ hx)
    obtain ⟨h1, h2, h3, h4⟩ := copy_arg_fits len a b j ha (by omega) hmem
    rcases hc : copy_arg len a b j with ⟨p, b1, j1⟩
    rw [hc] at h1 h2 h3 h4
    simp only at h1 h2 h3 h4
    subst h1 h2
    obtain ⟨b2, e1, e2, e3⟩ := ih (b1.store (j + a.length) 0) (j + a.length + 1) hrest
      (by omega) (by simp [Buf.store]; omega)
    refine ⟨b2, ?_, ?_, ?_⟩
    · have hj : j < len := by omega
      have step : ∀ l : List (List Nat), append_args len (a :: l) b j
          = append_args len l (b1.store (j + a.length) 0) (j + a.length + 1) := by
        intro l
        simp only [append_args, hj, if_true, hc, List.headD_nil, ne_eq,
          not_true_eq_false, if_false]
      rw [List.cons_append, step, e1]
      congr 1
      omega
    · rw [e2]; simp [Buf.store, h3]
    · have e : j + (a.length + 1 + (payload rest).length)
          = j + a.length + 1 + (payload rest).length := by omega
      rw [e, e3]
      simp only [Buf.store]
      rw [take_set_succ _ _ _ (by omega), h4]
      simp [payload]

theorem splitNul_arg (a rest cur : List Nat) (hnul : ∀ c ∈ a, c ≠ 0) :
    splitNul (a ++ 0 :: rest) cur = (cur.reverse ++ a) :: splitNul rest [] := by
  induction a generalizing cur with
  | nil => simp [splitNul]
  | cons c p ih =>
    have hc : c ≠ 0 := hnul c (List.mem_cons_self _ _)
    have hp : ∀ x ∈ p, x ≠ 0 := fun x hx => hnul x (List.mem_cons_of_mem _ hx)
    simp [splitNul, hc, ih (c :: cur) hp]

theorem splitNul_payload (args : List (List Nat)) (hnul : ∀ a ∈ args, ∀ c ∈ a, c ≠ 0) :
    splitNul (payload args) [] = args := by
  induction args with
  | nil => simp [payload, splitNul]
  | cons a rest ih =>
    have ha : ∀ c ∈ a, c ≠ 0 := hnul a (List.mem_cons_self _ _)
    have hrest : ∀ x ∈ rest, ∀ c ∈ x, c ≠ 0 := fun x hx => hnul x (List.mem_cons_of_mem _ hx)
    have e : payload (a :: rest) = a ++ 0 :: payload rest := by simp [payload]
    rw [e, splitNul_arg a (payload rest) [] ha, ih hrest]
    simp

theorem store4_mem (l : List Nat) (a b c d : Nat) (h : 4 ≤ l.length) :
    (((l.set 0 a).set 1 b).set 2 c).set 3 d = a :: b :: c :: d :: l.drop 4 := by
  match l, h with
  | _ :: _ :: _ :: _ :: _, _ => rfl

theorem byte_eq (x n : Nat) : byte x n = x / 256 ^ n % 256 := by
  have e : (255 : Nat) = 2 ^ 8 - 1 := by norm_num
  unfold byte
  rw [show (0xFF : Nat) = 2 ^ 8 - 1 by norm_num, Nat.and_pow_two_sub_one_eq_mod,
    Nat.shiftRight_eq_div_pow, Nat.mod_mod_of_dvd _ (by norm_num : 2 ^ 8 ∣ 2 ^ 32),
    Nat.mul_comm, Nat.pow_mul]
  norm_num

/-- What `prepare_args` does on a list that fits, also in front of further
arguments when the list fills the buffer to its last byte. -/
theorem prepare_args_fits (buffer : List Nat) (len : Nat) (args post : List (List Nat))
    (hnul : ∀ a ∈ args, ∀ c ∈ a, c ≠ 0) (hfit : encodedSize args ≤ len)
    (hmem : len ≤ buffer.length) (hpost : post = [] ∨ encodedSize args = len) :
    (prepare_args buffer len (args ++ post)).2 = .ret (encodedSize args) ∧
    (prepare_args buffer len (args ++ post)).1.mem.take (encodedSize args)
      = [byte (encodedSize args) 0, byte (encodedSize args) 1, byte (encodedSize args) 2,
          byte (encodedSize args) 3] ++ payload args := by
  have hsz := payload_length args
  obtain ⟨b1, e1, e2, e3⟩ := append_args_fits len args post ⟨buffer, []⟩ 4 hnul
    (by omega) hmem
  have e4 : append_args len post b1 (4 + (payload args).length)
      = (b1, .ret (encodedSize args)) := by
    rw [hsz]
    rcases hpost with h | h
    · subst h; rfl
    · cases post with
      | nil => rfl
      | cons a rest => simp [append_args, h]
  simp only [prepare_args, e1, e4, Buf.store, true_and]
  simp only at e2 e3
  rw [store4_mem _ _ _ _ _ (by omega)]
  have e5 : b1.mem.take (encodedSize args) = buffer.take 4 ++ payload args := by
    rw [← hsz]; exact e3
  have e6 : (b1.mem.take (encodedSize args)).drop 4 = payload args := by
    have h4 : (buffer.take 4).length = 4 := by
      rw [List.length_take]; omega
    rw [e5, List.drop_left' h4]
  rw [← hsz] at e6 ⊢
  simp only [List.take_succ_cons, List.cons_append, List.nil_append, Nat.add_comm 4,
    List.cons.injEq, true_and]
  rw [← e6, List.drop_take]
  simp [Nat.add_comm]

theorem decode_request (hdr body : List Nat) (args : List (List Nat))
    (hhdr : hdr.length = 4) (hbody : body = payload args)
    (hnul : ∀ a ∈ args, ∀ c ∈ a, c ≠ 0) : decode (hdr ++ body) = args := by
  rw [decode, List.drop_left' hhdr, hbody, splitNul_payload args hnul]

theorem copy_arg_log (len : Nat) (a : List Nat) (b : Buf) (j : Nat) (hj : j < len)
    (hlog : ∀ i ∈ b.log, i < len) :
    (∀ i ∈ (copy_arg len a b j).2.1.log, i < len) ∧ (copy_arg len a b j).2.2 < len ∧
    j ≤ (copy_arg len a b j).2.2 := by
  induction a generalizing b j with
  | nil => exact ⟨hlog, hj, le_refl j⟩
  | cons c p ih =>
    by_cases h : c ≠ 0 ∧ j < len - 1
    · rw [copy_arg, if_pos h]
      have h3 := ih (b.store j c) (j + 1) (by omega) (by
        intro i hi
        simp only [Buf.store, List.mem_cons] at hi
        rcases hi with hi | hi
        · omega
        · exact hlog i hi)
      exact ⟨h3.1, h3.2.1, by omega⟩
    · rw [copy_arg, if_neg h]
      exact ⟨hlog, hj, le_refl j⟩

theorem append_args_log (len : Nat) (args : List (List Nat)) (b : Buf) (j : Nat)
    (hj4 : 4 ≤ j) (hj : j ≤ len) (hlog : ∀ i ∈ b.log, i < len) :
    (∀ i ∈ (append_args len args b j).1.log, i < len) ∧
    (∀ k, (append_args len args b j).2 = .ret k → 4 ≤ k ∧ k ≤ len) := by
  induction args generalizing b j with
  | nil =>
    refine ⟨hlog, ?_⟩
    intro k hk
    simp only [append_args, Outcome.ret.injEq] at hk
    omega
  | cons a rest ih =>
    by_cases hlt : j < len
    · obtain ⟨h1, h2, h3⟩ := copy_arg_log len a b j hlt hlog
      rcases hc : copy_arg len a b j with ⟨p, b1, j1⟩
      rw [hc] at h1 h2 h3
      simp only at h1 h2 h3
      by_cases hp : p.headD 0 ≠ 0
      · simp only [append_args, hlt, if_true, hc, hp, ne_eq, not_false_eq_true]
        refine ⟨h1, ?_⟩
        intro k hk
        simp [failwith] at hk
      · simp only [append_args, hlt, if_true, hc, hp, if_false]
        apply ih
        · omega
        · omega
        · intro i hi
          simp only [Buf.store, List.mem_cons] at hi
          rcases hi with hi | hi
          · omega
          · exact h1 i hi
    · simp only [append_args, hlt, if_false]
      refine ⟨hlog, ?_⟩
      intro k hk
      simp only [Outcome.ret.injEq] at hk
      omega

theorem encodedSize_nil : encodedSize [] = 4 := rfl

theorem encodedSize_cons (a : List Nat) (rest : List (List Nat)) :
    encodedSize (a :: rest) = a.length + 1 + encodedSize rest := by
  simp only [encodedSize, List.map_cons, List.sum_cons]
  omega

theorem prepare_args_full_buffer (buffer : List Nat) (len : Nat) (a x : List Nat)
    (hnul : ∀ c ∈ a, c ≠ 0) (hlen : a.length + 5 = len) (hmem : len ≤ buffer.length) :
    (prepare_args buffer len [a, x]).2 = .ret len ∧
    decode ((prepare_args buffer len [a, x]).1.mem.take len) = [a] := by
  have hnul1 : ∀ y ∈ [a], ∀ c ∈ y, c ≠ 0 := by
    intro y hy
    rw [List.mem_singleton.mp hy]
    exact hnul
  have hsz : encodedSize [a] = len := by
    rw [encodedSize_cons, encodedSize_nil]; omega
  have h := prepare_args_fits buffer len [a] [x] hnul1 (by omega) hmem (Or.inr hsz)
  rw [hsz] at h
  have e : [a] ++ [x] = [a, x] := rfl
  rw [e] at h
  refine ⟨h.1, ?_⟩
  rw [h.2]
  exact decode_request _ _ _ rfl rfl hnul1

theorem replicate_nul_free (n : Nat) : ∀ c ∈ List.replicate n 120, c ≠ 0 := by
  intro c hc
  rw [List.eq_of_mem_replicate hc]
  decide

theorem copy_arg_count (len : Nat) (a : List Nat) (b : Buf) (j : Nat)
    (hnul : ∀ c ∈ a, c ≠ 0) (hfit : j + a.length < len) :
    (copy_arg len a b j).1 = [] ∧ (copy_arg len a b j).2.2 = j + a.length := by
  induction a generalizing b j with
  | nil => simp [copy_arg]
  | cons c p ih =>
    have hc : c ≠ 0 := hnul c (List.mem_cons_self _ _)
    simp only [List.length_cons] at hfit
    have hj : j < len - 1 := by omega
    have hp : ∀ c ∈ p, c ≠ 0 := fun x hx => hnul x (List.mem_cons_of_mem _ hx)
    rw [copy_arg, if_pos ⟨hc, hj⟩]
    obtain ⟨h1, h2⟩ := ih (b.store j c) (j + 1) hp (by omega)
    exact ⟨h1, by rw [h2, List.length_cons]; omega⟩

theorem copy_arg_overflow (len : Nat) (a : List Nat) (b : Buf) (j : Nat)
    (hnul : ∀ c ∈ a, c ≠ 0) (hj : j < len) (hover : len ≤ j + a.length) :
    (copy_arg len a b j).1.headD 0 ≠ 0 := by
  induction a generalizing b j with
  | nil => simp only [List.length_nil] at hover; omega
  | cons c p ih =>
    have hc : c ≠ 0 := hnul c (List.mem_cons_self _ _)
    have hp : ∀ c ∈ p, c ≠ 0 := fun x hx => hnul x (List.mem_cons_of_mem _ hx)
    simp only [List.length_cons] at hover
    by_cases h : j < len - 1
    · rw [copy_arg, if_pos ⟨hc, h⟩]
      exact ih (b.store j c) (j + 1) hp (by omega) (by omega)
    · rw [copy_arg, if_neg (by intro h2; exact h h2.2)]
      exact hc

theorem append_args_overflow (len : Nat) (args : List (List Nat)) (b : Buf) (j : Nat)
    (hnul : ∀ a ∈ args, ∀ c ∈ a, c ≠ 0) (hj : j < len)
    (hover : len < j + (payload args).length)
    (hno : ∀ k, j + (payload (args.take k)).length ≠ len) :
    (append_args len args b j).2 = failwith "maximum number of arguments exceeded" := by
  induction args generalizing b j with
  | nil => simp only [payload, List.map_nil, List.flatten_nil, List.length_nil] at hover; omega
  | cons a rest ih =>
    have hlen : ∀ l : List (List Nat),
        (payload (a :: l)).length = a.length + 1 + (payload l).length := by
      intro l
      simp only [payload, List.map_cons, List.flatten_cons, List.length_append,
        List.length_cons, List.length_nil]
    have ha : ∀ c ∈ a, c ≠ 0 := hnul a (List.mem_cons_self _ _)
    have hrest : ∀ x ∈ rest, ∀ c ∈ x, c ≠ 0 := fun x hx => hnul x (List.mem_cons_of_mem _ hx)
    rw [hlen] at hover
    rcases hc : copy_arg len a b j with ⟨p, b1, j1⟩
    by_cases hfit : j + a.length < len
    · obtain ⟨h1, h2⟩ := copy_arg_count len a b j ha hfit
      rw [hc] at h1 h2
      simp only at h1 h2
      subst h1 h2
      have h1 := hno 1
      have hnil : (payload ([] : List (List Nat))).length = 0 := rfl
      simp only [List.take_succ_cons, List.take_zero, hlen, hnil] at h1
      simp only [append_args, hj, if_true, hc, List.headD_nil, ne_eq, not_true_eq_false,
        if_false]
      apply ih _ _ hrest (by omega) (by omega)
      intro k
      have hk := hno (k + 1)
      simp only [List.take_succ_cons, hlen] at hk
      omega
    · have h := copy_arg_overflow len a b j ha hj (by omega)
      rw [hc] at h
      simp only at h
      simp only [append_args, hj, if_true, hc, h, ne_eq, not_false_eq_true]

/-- The fatal error is reached when the list is too long for the buffer and no
leading part of it fills the buffer exactly. -/
theorem prepare_args_overflow (buffer : List Nat) (len : Nat) (argv : List (List Nat))
    (hlen : 4 < len) (hnul : ∀ a ∈ argv, ∀ c ∈ a, c ≠ 0) (hover : len < encodedSize argv)
    (hno : ∀ k, encodedSize (argv.take k) ≠ len) :
    (prepare_args buffer len argv).2 = failwith "maximum number of arguments exceeded" := by
  have h := append_args_overflow len argv ⟨buffer, []⟩ 4 hnul hlen
    (by rw [payload_length]; exact hover)
    (by intro k; rw [payload_length]; exact hno k)
  rcases hr : append_args len argv ⟨buffer, []⟩ 4 with ⟨b, o⟩
  rw [hr] at h
  simp only at h
  subst h
  simp only [prepare_args, hr, failwith]

/-! ## Facts about `ipc_send` -/

theorem ipc_send_loop_exact (fd : Int) (buffer : List Nat) (len fuel sent : Nat)
    (w w1 : World) (S : List Nat)
    (h : ipc_send_loop fd buffer len fuel sent w = (.ret (), w1))
    (hsent : sent ≤ len) (hw : w.sent = S ++ buffer.take sent) :
    w1.sent = S ++ buffer.take len := by
  induction fuel generalizing sent w with
  | zero => simp [ipc_send_loop, finish] at h
  | succ f ih =>
    by_cases hlt : sent < len
    · simp only [ipc_send_loop, hlt, if_true] at h
      obtain ⟨r, w2, h1, h2⟩ := bind_ret_inv _ _ _ _ _ h
      by_cases hr : r.ret = -1
      · simp [hr, finish, failwith_perror] at h2
      · simp only [hr, if_false] at h2
        rcases NO_EINTR_loop_send _ _ _ _ _ _ _ _ h1 with h3 | h3
        · exact absurd h3.1 hr
        · apply ih (sent + r.ret.toNat) w2 h2 (by omega)
          rw [h3.2.2, hw, List.take_add, List.append_assoc]
    · simp only [ipc_send_loop, hlt, if_false] at h
      have e : sent = len := by omega
      have e2 : w1 = w := by
        have := (Prod.mk.inj h).2
        exact this.symm
      rw [e2, hw, e]

theorem ipc_send_exact (ptrSize : Nat) (fd : Int) (buffer : List Nat) (len : Nat)
    (fds : List Int) (w w1 : World)
    (h : ipc_send ptrSize fd buffer len fds w = (.ret (), w1)) (hp : ptrSize ≤ len) :
    w1.sent = w.sent ++ buffer.take len := by
  unfold ipc_send at h
  obtain ⟨r, w2, h1, h2⟩ := bind_ret_inv _ _ _ _ _ h
  by_cases hr : r.ret = -1
  · simp [hr, finish, failwith_perror] at h2
  · simp only [hr, if_false] at h2
    rcases NO_EINTR_loop_send _ _ _ _ _ _ _ _ h1 with h3 | h3
    · exact absurd h3.1 hr
    · apply ipc_send_loop_exact fd buffer len _ r.ret.toNat w2 w1 w.sent h2 (by omega)
      rw [h3.2.2, List.drop_zero]

/-! ## Facts about the connection and the exit status -/

theorem exit_status_char (signed : Bool) (N : Nat) (hN : N < 256) :
    exit_status (char_to_int signed N) = N := by
  unfold exit_status char_to_int
  split <;> omega

theorem strcpy_fits_of_lt (sz : Nat) (socket_path : List Nat)
    (hfit : socket_path.length < sz) : strcpy_fits sz socket_path = true := by
  unfold strcpy_fits
  exact decide_eq_true (by omega)

/-- A path that does not fit in `sun_path` with its terminator: the copy goes
beyond the array before any system call is made. -/
theorem connect_socket_overflow (sz : Nat) (socket_path : List Nat) (fail : Bool)
    (w : World) (hlong : sz ≤ socket_path.length) :
    connect_socket sz socket_path fail w = (.overflow, w) := by
  have h : strcpy_fits sz socket_path = false := by
    unfold strcpy_fits
    exact decide_eq_false (by omega)
  unfold connect_socket
  rw [h]
  rfl

theorem connect_socket_refused (sz : Nat) (socket_path : List Nat) (s c : SysRes)
    (pre rest : List SysRes) (calls : List Call) (sent : List Nat)
    (hfit : socket_path.length < sz)
    (hs : s.ret ≠ -1) (hpre : ∀ e ∈ pre, interrupted e)
    (hc : c.ret = -1 ∧ c.errno ≠ EINTR) :
    connect_socket sz socket_path false ⟨s :: (pre ++ c :: rest), calls, sent⟩
      = (.ret (-1), ⟨rest,
          calls ++ [.socket] ++ List.replicate (pre.length + 1) (.connect socket_path)
            ++ [.close], sent⟩) := by
  have hc1 : ¬ interrupted c := by unfold interrupted; omega
  unfold connect_socket
  rw [strcpy_fits_of_lt sz socket_path hfit, if_pos rfl]
  rw [bind_ret _ _ _ _ _ (sys_cons .socket s _ calls sent)]
  simp only [hs, if_false]
  rw [bind_ret _ _ _ _ _ (NO_EINTR_sys (.connect socket_path) pre c rest _ sent hpre hc1)]
  simp only [hc.1, if_true, Bool.false_eq_true, if_false]
  rfl

theorem start_server_bind_fails (sz : Nat) (socket_path exec_path : List Nat)
    (s b : SysRes) (pre rest : List SysRes) (calls : List Call) (sent : List Nat)
    (hfit : socket_path.length < sz)
    (hs : s.ret ≠ -1) (hpre : ∀ e ∈ pre, interrupted e)
    (hb : b.ret = -1 ∧ b.errno ≠ EINTR) :
    start_server sz socket_path exec_path ⟨s :: (pre ++ b :: rest), calls, sent⟩
      = (.exit 1 (some "bind"), ⟨rest,
          calls ++ [.unlink socket_path, .socket]
            ++ List.replicate (pre.length + 1) (.bind socket_path), sent⟩) := by
  have hb1 : ¬ interrupted b := by unfold interrupted; omega
  unfold start_server
  rw [strcpy_fits_of_lt sz socket_path hfit, if_pos rfl]
  rw [bind_ret _ _ _ _ _ (rfl : sys_ignored (.unlink socket_path) ⟨s :: (pre ++ b :: rest), calls, sent⟩ = _)]
  rw [bind_ret _ _ _ _ _ (sys_cons .socket s _ _ sent)]
  simp only [hs, if_false]
  rw [bind_ret _ _ _ _ _ (NO_EINTR_sys (.bind socket_path) pre b rest _ sent hpre hb1)]
  simp [hb.1, finish, failwith_perror]

/-! ## Facts about the socket path -/

theorem utoa_loop_acc (fuel n : Nat) (acc : List Nat) :
    utoa_loop fuel n acc = utoa_loop fuel n [] ++ acc := by
  induction fuel generalizing n acc with
  | zero => rfl
  | succ f ih =>
    by_cases h : n < 10
    · simp only [utoa_loop, h, if_true, List.singleton_append]
    · simp only [utoa_loop, h, if_false]
      rw [ih (n / 10) ((48 + n % 10) :: acc), ih (n / 10) [48 + n % 10]]
      simp

theorem digits_val_utoa_loop (fuel n : Nat) (h : n < 10 ^ fuel) :
    digits_val (utoa_loop fuel n []) = n := by
  induction fuel generalizing n with
  | zero =>
    simp only [pow_zero, Nat.lt_one_iff] at h
    subst h
    rfl
  | succ f ih =>
    by_cases h10 : n < 10
    · simp only [utoa_loop, h10, if_true, digits_val, List.foldl_cons, List.foldl_nil]
      omega
    · simp only [utoa_loop, h10, if_false]
      rw [utoa_loop_acc]
      have hd : n / 10 < 10 ^ f := by
        apply Nat.div_lt_of_lt_mul
        rw [pow_succ] at h
        omega
      have e := ih (n / 10) hd
      unfold digits_val at e ⊢
      rw [List.foldl_append, e]
      simp only [List.foldl_cons, List.foldl_nil]
      omega

theorem utoa_injective (a b : Nat) (ha : a < 2 ^ 64) (hb : b < 2 ^ 64)
    (h : utoa a = utoa b) : a = b := by
  have h1 := digits_val_utoa_loop 20 a (by omega)
  have h2 := digits_val_utoa_loop 20 b (by omega)
  unfold utoa at h
  rw [h] at h1
  omega

theorem utoa_loop_digits (fuel n : Nat) (acc : List Nat) (hacc : ∀ c ∈ acc, is_digit c) :
    ∀ c ∈ utoa_loop fuel n acc, is_digit c := by
  induction fuel generalizing n acc with
  | zero => exact hacc
  | succ f ih =>
    by_cases h : n < 10
    · simp only [utoa_loop, h, if_true]
      intro c hc
      rcases List.mem_cons.mp hc with hc | hc
      · unfold is_digit; omega
      · exact hacc c hc
    · simp only [utoa_loop, h, if_false]
      apply ih
      intro c hc
      rcases List.mem_cons.mp hc with hc | hc
      · unfold is_digit; omega
      · exact hacc c hc

theorem utoa_digits (n : Nat) : ∀ c ∈ utoa n, is_digit c :=
  utoa_loop_digits 20 n [] (by intro c hc; cases hc)

theorem digits_split (s : Nat) (hs : ¬ is_digit s) (xs ys r r2 : List Nat)
    (hx : ∀ c ∈ xs, is_digit c) (hy : ∀ c ∈ ys, is_digit c)
    (h : xs ++ s :: r = ys ++ s :: r2) : xs = ys ∧ r = r2 := by
  induction xs generalizing ys with
  | nil =>
    cases ys with
    | nil => simpa using h
    | cons y ys =>
      simp only [List.nil_append, List.cons_append, List.cons.injEq] at h
      exact absurd (h.1 ▸ hy y (List.mem_cons_self _ _)) hs
  | cons x xs ih =>
    cases ys with
    | nil =>
      simp only [List.nil_append, List.cons_append, List.cons.injEq] at h
      exact absurd (h.1 ▸ hx x (List.mem_cons_self _ _)) hs
    | cons y ys =>
      simp only [List.cons_append, List.cons.injEq] at h
      obtain ⟨e1, e2⟩ := ih ys (fun c hc => hx c (List.mem_cons_of_mem _ hc))
        (fun c hc => hy c (List.mem_cons_of_mem _ hc)) h.2
      exact ⟨by rw [h.1, e1], e2⟩

theorem socketpath_text_injective (tmpdir : List Nat) (d1 i1 d2 i2 : Nat)
    (hd1 : d1 < 2 ^ 64) (hi1 : i1 < 2 ^ 64) (hd2 : d2 < 2 ^ 64) (hi2 : i2 < 2 ^ 64)
    (h : socketpath_text tmpdir d1 i1 = socketpath_text tmpdir d2 i2) :
    d1 = d2 ∧ i1 = i2 := by
  have e : ∀ d i, socketpath_text tmpdir d i
      = (tmpdir ++ cstr "/ocamlmerlin_") ++ (utoa d ++ 95 :: (utoa i ++ cstr ".socket")) := by
    intro d i
    have e95 : cstr "_" = [95] := by decide
    simp only [socketpath_text, e95, List.append_assoc, List.singleton_append,
      List.cons_append, List.nil_append]
  rw [e, e] at h
  have h1 := List.append_cancel_left h
  obtain ⟨h2, h3⟩ := digits_split 95 (by unfold is_digit; omega) _ _ _ _
    (utoa_digits d1) (utoa_digits d2) h1
  exact ⟨utoa_injective d1 d2 hd1 hd2 h2,
    utoa_injective i1 i2 hi1 hi2 (List.append_cancel_right h3)⟩

theorem snprintf_short (size : Nat) (text : List Nat) (h : text.length < size) :
    snprintf size text = (text, text.length) := by
  unfold snprintf
  rw [List.take_of_length_le (by omega), Nat.min_eq_left (by omega)]

theorem snprintf_long_tmpdir (size : Nat) (tmpdir : List Nat) (d i : Nat)
    (h : size - 1 ≤ tmpdir.length) :
    snprintf size (socketpath_text tmpdir d i) = (tmpdir.take (size - 1), size - 1) := by
  unfold snprintf
  have hlen : size - 1 ≤ (socketpath_text tmpdir d i).length := by
    simp only [socketpath_text, List.length_append]
    omega
  rw [Nat.min_eq_right hlen]
  simp only [socketpath_text, List.append_assoc]
  rw [List.take_append_of_le_length h]

theorem compute_socketpath_fits (env : Env) (p : List Nat) (d i : Nat)
    (hst : env.stat p = some (d, i)) (hd : d < 2 ^ 64) (hi : i < 2 ^ 64)
    (hfit : (socketpath_text (get_tmpdir env) d i).length < env.PATH_MAX) :
    compute_socketpath env p = .ret (socketpath_text (get_tmpdir env) d i) := by
  simp only [compute_socketpath, hst, ull, Nat.mod_eq_of_lt hd, Nat.mod_eq_of_lt hi]
  rw [snprintf_short _ _ (by omega)]

theorem compute_socketpath_long_tmpdir (env : Env) (p : List Nat) (d i : Nat)
    (hst : env.stat p = some (d, i)) (hlong : env.PATH_MAX ≤ (get_tmpdir env).length) :
    compute_socketpath env p = .ret ((get_tmpdir env).take env.PATH_MAX) := by
  simp only [compute_socketpath, hst]
  rw [snprintf_long_tmpdir _ _ _ _ (by omega)]
  rfl

/-- What holds of the socket path: when the text
`<tmpdir>/ocamlmerlin_<device>_<inode>.socket` (decimal ids of at most 64
bits) and its terminator fit in the `PATH_MAX` bytes of `socket_path`, the
text is the socket path, and for the same temp directory two runs get the
same path exactly when they have the same device and the same inode. -/
theorem compute_socketpath_identity (env1 env2 : Env) (p1 p2 : List Nat)
    (d1 i1 d2 i2 : Nat)
    (hT : env1.TMPDIR = env2.TMPDIR)
    (h1 : env1.stat p1 = some (d1, i1)) (h2 : env2.stat p2 = some (d2, i2))
    (hd1 : d1 < 2 ^ 64) (hi1 : i1 < 2 ^ 64) (hd2 : d2 < 2 ^ 64) (hi2 : i2 < 2 ^ 64)
    (hfit1 : (socketpath_text (get_tmpdir env1) d1 i1).length < env1.PATH_MAX)
    (hfit2 : (socketpath_text (get_tmpdir env2) d2 i2).length < env2.PATH_MAX) :
    compute_socketpath env1 p1
      = .ret (get_tmpdir env1 ++ cstr "/ocamlmerlin_" ++ utoa d1 ++ cstr "_" ++ utoa i1
          ++ cstr ".socket") ∧
    (compute_socketpath env1 p1 = compute_socketpath env2 p2 ↔ (d1 = d2 ∧ i1 = i2)) := by
  have eT : get_tmpdir env2 = get_tmpdir env1 := by unfold get_tmpdir; rw [hT]
  rw [compute_socketpath_fits env1 p1 d1 i1 h1 hd1 hi1 hfit1,
    compute_socketpath_fits env2 p2 d2 i2 h2 hd2 hi2 hfit2, eT]
  refine ⟨rfl, ?_, ?_⟩
  · intro h
    exact socketpath_text_injective _ d1 i1 d2 i2 hd1 hi1 hd2 hi2 (Outcome.ret.inj h)
  · rintro ⟨e1, e2⟩
    rw [e1, e2]

/-! ## The claims -/

/-- C1: for every list of NUL-free argument strings whose encoded size
`4 + sum (length + 1)` is at most the capacity `len` of the buffer (65536 in
`main`), `prepare_args` returns that size, and decoding the first that many
bytes of the buffer (skip the four bytes of the length field, split at each
terminating zero byte) gives back the list, in order, empty strings and the
empty list included. -/
theorem prepare_args_roundtrip (buffer : List Nat) (len : Nat) (argv : List (List Nat))
    (hnul : ∀ a ∈ argv, ∀ c ∈ a, c ≠ 0) (hfit : encodedSize argv ≤ len)
    (hmem : len ≤ buffer.length) :
    (prepare_args buffer len argv).2 = .ret (encodedSize argv) ∧
    decode ((prepare_args buffer len argv).1.mem.take (encodedSize argv)) = argv := by
  have h := prepare_args_fits buffer len argv [] hnul hfit hmem (Or.inl rfl)
  rw [List.append_nil] at h
  refine ⟨h.1, ?_⟩
  rw [h.2]
  exact decode_request _ _ argv rfl rfl hnul

/-- C1 at a buffer of 16 bytes and the arguments `ab`, the empty string, `c`. -/
theorem prepare_args_roundtrip_witness :
    ((∀ a ∈ [[97, 98], [], [99]], ∀ c ∈ a, c ≠ 0) ∧
      encodedSize [[97, 98], [], [99]] ≤ 16 ∧ 16 ≤ (List.replicate 16 0).length) ∧
    (prepare_args (List.replicate 16 0) 16 [[97, 98], [], [99]]).2 = .ret 10 ∧
    decode ((prepare_args (List.replicate 16 0) 16 [[97, 98], [], [99]]).1.mem.take 10)
      = [[97, 98], [], [99]] :=
  ⟨by decide, prepare_args_roundtrip (List.replicate 16 0) 16 [[97, 98], [], [99]]
    (by decide) (by decide) (by decide)⟩

/-- C2, the code at a failing input: one argument of 65531 bytes fills the
buffer of 65536 bytes to its last byte, a second argument follows, so the
encoded size is 65538; `prepare_args` returns 65536 without the fatal error,
and the request in the buffer holds the first argument only. -/
theorem prepare_args_drops_argument :
    encodedSize [List.replicate 65531 120, [121]] = 65538 ∧
    (prepare_args argbuffer argbuffer_size [List.replicate 65531 120, [121]]).2
      = .ret 65536 ∧
    decode ((prepare_args argbuffer argbuffer_size
      [List.replicate 65531 120, [121]]).1.mem.take 65536) = [List.replicate 65531 120] := by
  refine ⟨?_, ?_⟩
  · rw [encodedSize_cons, encodedSize_cons, encodedSize_nil, List.length_replicate]
    rfl
  · exact prepare_args_full_buffer argbuffer argbuffer_size (List.replicate 65531 120) [121]
      (replicate_nul_free 65531) (by rw [List.length_replicate]; rfl)
      (by rw [argbuffer, List.length_replicate]; exact le_refl _)

/-- C3: for every argument list that fits in a buffer of capacity `len` below
2^32 (65536 in `main`), `prepare_args` returns `j = 4 + sum (length + 1)`, the
number of bytes written with the length field itself, and the first four
bytes of the buffer are `j` in little-endian order. -/
theorem prepare_args_length_field (buffer : List Nat) (len : Nat) (argv : List (List Nat))
    (hnul : ∀ a ∈ argv, ∀ c ∈ a, c ≠ 0) (hfit : encodedSize argv ≤ len)
    (hmem : len ≤ buffer.length) (h32 : len < 2 ^ 32) :
    (prepare_args buffer len argv).2 = .ret (encodedSize argv) ∧
    (prepare_args buffer len argv).1.mem.take 4
      = [encodedSize argv % 256, encodedSize argv / 256 % 256,
          encodedSize argv / 65536 % 256, encodedSize argv / 16777216 % 256] ∧
    le32 ((prepare_args buffer len argv).1.mem.take 4) = encodedSize argv := by
  have h := prepare_args_fits buffer len argv [] hnul hfit hmem (Or.inl rfl)
  rw [List.append_nil] at h
  have h4 : 4 ≤ encodedSize argv := by unfold encodedSize; omega
  have e : (prepare_args buffer len argv).1.mem.take 4
      = [encodedSize argv % 256, encodedSize argv / 256 % 256,
          encodedSize argv / 65536 % 256, encodedSize argv / 16777216 % 256] := by
    have e1 : (prepare_args buffer len argv).1.mem.take 4
        = ((prepare_args buffer len argv).1.mem.take (encodedSize argv)).take 4 := by
      rw [List.take_take, Nat.min_eq_left h4]
    rw [e1, h.2]
    simp [byte_eq]
  refine ⟨h.1, e, ?_⟩
  rw [e]
  simp only [le32, List.getD_cons_zero, List.getD_cons_succ]
  omega

/-- C3 at a buffer of 16 bytes and the arguments `ab`, the empty string, `c`. -/
theorem prepare_args_length_field_witness :
    ((∀ a ∈ [[97, 98], [], [99]], ∀ c ∈ a, c ≠ 0) ∧
      encodedSize [[97, 98], [], [99]] ≤ 16 ∧ 16 ≤ (List.replicate 16 0).length ∧
      16 < 2 ^ 32) ∧
    (prepare_args (List.replicate 16 0) 16 [[97, 98], [], [99]]).2 = .ret 10 ∧
    (prepare_args (List.replicate 16 0) 16 [[97, 98], [], [99]]).1.mem.take 4
      = [10, 0, 0, 0] ∧
    le32 ((prepare_args (List.replicate 16 0) 16 [[97, 98], [], [99]]).1.mem.take 4) = 10 :=
  ⟨by decide, prepare_args_length_field (List.replicate 16 0) 16 [[97, 98], [], [99]]
    (by decide) (by decide) (by decide) (by decide)⟩

/-- C4: for every byte value `N` from 0 to 255, whether plain `char` is signed
or not: when the read of the status byte, after any number of interrupted
attempts, returns 1 and delivers the byte `N`, the client calls `exit` with
the `char` holding `N`, and the exit status, the low eight bits of that value,
is `N`. -/
theorem main_relay_status_byte (env : Env) (sock : Int) (N : Nat) (hN : N < 256)
    (pre : List SysRes) (r : SysRes) (rest : List SysRes) (calls : List Call)
    (sent : List Nat) (hpre : ∀ e ∈ pre, interrupted e) (hret : r.ret = 1)
    (hdata : r.data = N) :
    (main_relay env sock ⟨pre ++ r :: rest, calls, sent⟩).1
      = .exit (char_to_int env.charSigned N) none ∧
    exit_status (char_to_int env.charSigned N) = N := by
  have hr : ¬ interrupted r := by unfold interrupted; omega
  refine ⟨?_, exit_status_char _ N hN⟩
  unfold main_relay
  rw [bind_ret _ _ _ _ _ (NO_EINTR_sys (.read sock) pre r rest calls sent hpre hr)]
  simp [hret, hdata, finish]

/-- C4 for a signed `char`, the byte 200 and one interrupted attempt before
the read that delivers it. -/
theorem main_relay_status_byte_witness :
    (200 < 256 ∧ (∀ e ∈ [(⟨-1, 4, 0⟩ : SysRes)], interrupted e) ∧ (1 : Int) = 1 ∧
      200 = 200) ∧
    (main_relay ⟨1024, 8, 104, true, fun p => (true, p), fun _ => none, none⟩ 3
        ⟨[⟨-1, 4, 0⟩] ++ ⟨1, 0, 200⟩ :: [], [], []⟩).1
      = .exit (char_to_int true 200) none ∧
    exit_status (char_to_int true 200) = 200 :=
  ⟨by decide, main_relay_status_byte
    ⟨1024, 8, 104, true, fun p => (true, p), fun _ => none, none⟩ 3 200 (by decide)
    [⟨-1, 4, 0⟩] ⟨1, 0, 200⟩ [] [] [] (by decide) rfl rfl⟩

/-- C5: when the read of the status byte, after any number of interrupted
attempts, returns 0 (the peer closed the connection) or fails with an error
other than EINTR, the client exits with the status 1, which is not 0. -/
theorem main_relay_fallback (env : Env) (sock : Int)
    (pre : List SysRes) (r : SysRes) (rest : List SysRes) (calls : List Call)
    (sent : List Nat) (hpre : ∀ e ∈ pre, interrupted e)
    (hr : r.ret = 0 ∨ (r.ret = -1 ∧ r.errno ≠ EINTR)) :
    (main_relay env sock ⟨pre ++ r :: rest, calls, sent⟩).1 = .exit 1 none ∧
    exit_status 1 = 1 ∧ exit_status 1 ≠ 0 := by
  have hr1 : ¬ interrupted r := by unfold interrupted; omega
  have hr2 : r.ret ≠ 1 := by omega
  refine ⟨?_, by decide, by decide⟩
  unfold main_relay
  rw [bind_ret _ _ _ _ _ (NO_EINTR_sys (.read sock) pre r rest calls sent hpre hr1)]
  simp [hr2, finish]

/-- C5 for a connection closed by the peer after one interrupted attempt. -/
theorem main_relay_fallback_witness :
    ((∀ e ∈ [(⟨-1, 4, 0⟩ : SysRes)], interrupted e) ∧
      ((0 : Int) = 0 ∨ ((0 : Int) = -1 ∧ 0 ≠ EINTR))) ∧
    (main_relay ⟨1024, 8, 104, true, fun p => (true, p), fun _ => none, none⟩ 3
        ⟨[⟨-1, 4, 0⟩] ++ ⟨0, 0, 0⟩ :: [], [], []⟩).1 = .exit 1 none ∧
    exit_status 1 = 1 ∧ exit_status 1 ≠ 0 :=
  ⟨by decide, main_relay_fallback
    ⟨1024, 8, 104, true, fun p => (true, p), fun _ => none, none⟩ 3
    [⟨-1, 4, 0⟩] ⟨0, 0, 0⟩ [] [] [] (by decide) (by decide)⟩

/-- C6, the code at a failing input: with pointers of 8 bytes, a request of
length 4 (no argument) and a socket that takes the 8 bytes offered by the
first `sendmsg`, `ipc_send` returns after handing 8 bytes of the buffer to
the socket, not the first 4. -/
theorem ipc_send_sends_more :
    ipc_send 8 3 [4, 0, 0, 0, 0, 0, 0, 0, 0, 0, 0, 0] 4 [0, 1, 2] ⟨[⟨8, 0, 0⟩], [], []⟩
      = (.ret (), ⟨[], [.sendmsg 3 [0, 1, 2] 8], [4, 0, 0, 0, 0, 0, 0, 0]⟩) := by
  decide

/-- C7, the code at a failing input: with `PATH_MAX = 1024` and a `TMPDIR` of
1024 characters, `snprintf` cuts the text before the ids without any error:
the identities `(1, 1)` and `(1, 2)`, same device and another inode, get the
same socket path, and the terminator is stored at index 1024, after the last
byte of the array `socket_path`. -/
theorem compute_socketpath_truncated_collision :
    ((1, 1) : Nat × Nat) ≠ (1, 2) ∧
    compute_socketpath
        ⟨1024, 8, 104, true, fun p => (true, p), fun _ => some (1, 1),
          some (List.replicate 1024 97)⟩
        (cstr "/bin/ocamlmerlin-daemon")
      = compute_socketpath
        ⟨1024, 8, 104, true, fun p => (true, p), fun _ => some (1, 2),
          some (List.replicate 1024 97)⟩
        (cstr "/bin/ocamlmerlin-daemon") ∧
    (snprintf (1024 + 1) (socketpath_text (List.replicate 1024 97) 1 1)).2 = 1024 := by
  refine ⟨by decide, ?_, ?_⟩
  · rw [compute_socketpath_long_tmpdir _ _ 1 1 rfl
        (by simp only [get_tmpdir, List.length_replicate]; exact le_refl _),
      compute_socketpath_long_tmpdir _ _ 1 2 rfl
        (by simp only [get_tmpdir, List.length_replicate]; exact le_refl _)]
    rfl
  · rw [snprintf_long_tmpdir _ _ _ _ (by rw [List.length_replicate])]

/-- C8 fails: with a socket path that fits in `sun_path`, the first connect is
refused (errno 61), `bind` then fails with EADDRINUSE (errno 48): the client
exits with status 1 after the diagnostic `bind`; the result of a second
connect, still in the script, is not asked for. -/
theorem connect_and_serve_bind_in_use_exits :
    (connect_and_serve 104 (cstr "/tmp/s") (cstr "/bin/d")
      ⟨[⟨3, 0, 0⟩, ⟨-1, 61, 0⟩, ⟨4, 0, 0⟩, ⟨-1, 48, 0⟩, ⟨0, 0, 0⟩], [], []⟩)
    = (.exit 1 (some "bind"),
        ⟨[⟨0, 0, 0⟩], [.socket, .connect (cstr "/tmp/s"), .close, .unlink (cstr "/tmp/s"),
          .socket, .bind (cstr "/tmp/s")], []⟩) := by
  decide

/-- C8 as amended: for a socket path that fits with its terminator in the
array `sun_path`, when the first connect fails and the following `bind` of
`start_server` fails (each after any number of interrupted attempts, with any
error other than EINTR), the client prints the diagnostic `bind` and exits
with status 1; the calls it has made are `socket`, the connects, `close`,
`unlink`, `socket` and the binds: there is no connect after the bind. -/
theorem connect_and_serve_bind_fatal (sun_path_size : Nat) (socket_path exec_path : List Nat)
    (s1 c1 s2 b : SysRes) (pre1 pre2 rest : List SysRes) (calls : List Call)
    (sent : List Nat)
    (hfit : socket_path.length + 1 ≤ sun_path_size)
    (hs1 : s1.ret ≠ -1) (hpre1 : ∀ e ∈ pre1, interrupted e)
    (hc1 : c1.ret = -1 ∧ c1.errno ≠ EINTR)
    (hs2 : s2.ret ≠ -1) (hpre2 : ∀ e ∈ pre2, interrupted e)
    (hb : b.ret = -1 ∧ b.errno ≠ EINTR) :
    connect_and_serve sun_path_size socket_path exec_path
        ⟨s1 :: (pre1 ++ c1 :: s2 :: (pre2 ++ b :: rest)), calls, sent⟩
      = (.exit 1 (some "bind"), ⟨rest,
          calls ++ [.socket] ++ List.replicate (pre1.length + 1) (.connect socket_path)
            ++ [.close] ++ [.unlink socket_path, .socket]
            ++ List.replicate (pre2.length + 1) (.bind socket_path), sent⟩) := by
  have hlt : socket_path.length < sun_path_size := by omega
  unfold connect_and_serve
  rw [bind_ret _ _ _ _ _
    (connect_socket_refused sun_path_size socket_path s1 c1 pre1 _ calls sent hlt hs1
      hpre1 hc1)]
  apply bind_exit
  exact start_server_bind_fails sun_path_size socket_path exec_path s2 b pre2 rest _ sent
    hlt hs2 hpre2 hb

/-- C8 as amended, for a `sun_path` of 104 bytes, a connect interrupted once
and then refused, and a `bind` that fails with EADDRINUSE. -/
theorem connect_and_serve_bind_fatal_witness :
    ((cstr "/tmp/s").length + 1 ≤ 104 ∧
      (3 : Int) ≠ -1 ∧ (∀ e ∈ [(⟨-1, 4, 0⟩ : SysRes)], interrupted e) ∧
      ((-1 : Int) = -1 ∧ 61 ≠ EINTR) ∧ (4 : Int) ≠ -1 ∧
      (∀ e ∈ ([] : List SysRes), interrupted e) ∧ ((-1 : Int) = -1 ∧ 48 ≠ EINTR)) ∧
    connect_and_serve 104 (cstr "/tmp/s") (cstr "/bin/d")
        ⟨⟨3, 0, 0⟩ :: ([⟨-1, 4, 0⟩] ++ ⟨-1, 61, 0⟩ :: ⟨4, 0, 0⟩ :: ([] ++ ⟨-1, 48, 0⟩ :: [])),
          [], []⟩
      = (.exit 1 (some "bind"), ⟨[],
          [] ++ [.socket] ++ List.replicate ([(⟨-1, 4, 0⟩ : SysRes)].length + 1)
              (.connect (cstr "/tmp/s"))
            ++ [.close] ++ [.unlink (cstr "/tmp/s"), .socket]
            ++ List.replicate (([] : List SysRes).length + 1) (.bind (cstr "/tmp/s")), []⟩) :=
  ⟨by decide, connect_and_serve_bind_fatal 104 (cstr "/tmp/s") (cstr "/bin/d")
    ⟨3, 0, 0⟩ ⟨-1, 61, 0⟩ ⟨4, 0, 0⟩ ⟨-1, 48, 0⟩ [⟨-1, 4, 0⟩] [] [] [] []
    (by decide) (by decide) (by decide) (by decide) (by decide) (by decide) (by decide)⟩

/-- C9, the code at a failing input: `realpath` fails and leaves the initial
string of the buffer; `compute_merlinpath` returns the daemon path
`ocamlmerlin-daemon` without any fatal error, and `main` goes on to `execvp`
with it. -/
theorem compute_merlinpath_unchecked_realpath :
    compute_merlinpath
      ⟨1024, 8, 104, true, fun _ => (false, cstr "<not computed yet>"), fun _ => none, none⟩
      (cstr "ocamlmerlin") = .ret (cstr "ocamlmerlin-daemon") ∧
    (main ⟨1024, 8, 104, true, fun _ => (false, cstr "<not computed yet>"), fun _ => none, none⟩
      [cstr "ocamlmerlin", cstr "-version"] ⟨[⟨0, 0, 0⟩], [], []⟩).1
      = .exec (cstr "ocamlmerlin-daemon") [cstr "ocamlmerlin-daemon", cstr "-version"] := by
  decide

/-- C10: for every argument list and every capacity `len >= 4`, every index
that `prepare_args` stores to (argument bytes, terminators, the four bytes of
the length field), also in a run that ends in the fatal error, is below `len`,
and a returned count `j` has `4 <= j <= len`. -/
theorem prepare_args_in_bounds (buffer : List Nat) (len : Nat) (argv : List (List Nat))
    (hlen : 4 ≤ len) :
    (∀ i ∈ (prepare_args buffer len argv).1.log, i < len) ∧
    (∀ j, (prepare_args buffer len argv).2 = .ret j → 4 ≤ j ∧ j ≤ len) := by
  obtain ⟨h1, h2⟩ := append_args_log len argv ⟨buffer, []⟩ 4 (le_refl 4) hlen
    (by intro i hi; simp at hi)
  rcases hr : append_args len argv ⟨buffer, []⟩ 4 with ⟨b, o⟩
  rw [hr] at h1 h2
  simp only at h1 h2
  cases o with
  | ret j =>
    simp only [prepare_args, hr, Buf.store, List.mem_cons, Outcome.ret.injEq]
    refine ⟨?_, ?_⟩
    · intro i hi
      rcases hi with hi | hi | hi | hi | hi
      · omega
      · omega
      · omega
      · omega
      · exact h1 i hi
    · intro k hk
      exact h2 k (by rw [hk])
  | exit s d =>
    simp only [prepare_args, hr]
    exact ⟨h1, h2⟩
  | abort =>
    simp only [prepare_args, hr]
    exact ⟨h1, h2⟩
  | exec f a =>
    simp only [prepare_args, hr]
    exact ⟨h1, h2⟩
  | overflow =>
    simp only [prepare_args, hr]
    exact ⟨h1, h2⟩
  | blocked =>
    simp only [prepare_args, hr]
    exact ⟨h1, h2⟩

/-- C10 at a buffer of 8 bytes and two arguments of which the second does not
fit. -/
theorem prepare_args_in_bounds_witness :
    4 ≤ 8 ∧ (∀ i ∈ (prepare_args (List.replicate 8 0) 8 [[97, 98], [99, 100]]).1.log, i < 8) ∧
    (∀ j, (prepare_args (List.replicate 8 0) 8 [[97, 98], [99, 100]]).2 = .ret j →
      4 ≤ j ∧ j ≤ 8) :=
  ⟨by decide, prepare_args_in_bounds (List.replicate 8 0) 8 [[97, 98], [99, 100]] (by decide)⟩

end Merlin
